import Mathlib

set_option linter.unusedVariables false

/-!
Verification of the recon repository's FIFO lot ledger, split adjustment,
valuation defaults, XIRR guards, Modified-Dietz TWR, and reconciliation
engine, as a shallow embedding in Lean 4.

Conventions of the embedding:
* Python Decimal values are modelled as rationals (the code performs exact
  Decimal arithmetic on these paths; the float paths in the TWR/XIRR
  calculators compute the same rational formulas).
* Dates are modelled as integers (day numbers); only differences of dates
  are ever used by the embedded code.
* Mutation is modelled by explicit state passing: a Python method that
  mutates an object becomes a Lean function returning the updated value.
-/

namespace Recon

/-- Embedding of src/recon/models/lot.py, class Lot.  The UUID lot_id is
modelled as a natural number; fields not read by any embedded computation
(asset type, option/bond extras) are omitted. -/
structure Lot where
  lot_id : Nat
  symbol : String
  acquisition_date : Int
  acquisition_price : ℚ
  acquisition_quantity : ℚ
  acquisition_cost : ℚ
  acquisition_fx_rate : ℚ
  remaining_quantity : ℚ
  allocated_fees : ℚ
deriving Repr, DecidableEq, Inhabited

/-- Lot.cost_per_unit: acquisition_cost / acquisition_quantity, 0 when the
acquisition quantity is zero (lot.py lines 53-58). -/
def Lot.cost_per_unit (l : Lot) : ℚ :=
  if l.acquisition_quantity = 0 then 0 else l.acquisition_cost / l.acquisition_quantity

/-- Lot.remaining_cost_basis (lot.py lines 60-63). -/
def Lot.remaining_cost_basis (l : Lot) : ℚ :=
  l.cost_per_unit * l.remaining_quantity

/-- Lot.is_depleted: remaining_quantity <= 0 (lot.py lines 65-68). -/
def Lot.is_depleted (l : Lot) : Bool :=
  l.remaining_quantity ≤ 0

/-- Lot.dispose (lot.py lines 80-99).  Caps the quantity at the remaining
quantity, computes realized P&L, and decrements remaining_quantity.
Returns ((quantity_disposed, realized_pnl), updated lot); the date
argument is accepted but unused, as in the source. -/
def Lot.dispose (l : Lot) (quantity sale_price : ℚ) (sale_date : Int)
    (sale_fx_rate : ℚ) : (ℚ × ℚ) × Lot :=
  let q := if quantity > l.remaining_quantity then l.remaining_quantity else quantity
  let sale_proceeds := q * sale_price * sale_fx_rate
  let cost_basis := l.cost_per_unit * q * l.acquisition_fx_rate
  ((q, sale_proceeds - cost_basis),
   { l with remaining_quantity := l.remaining_quantity - q })

/-- Lot.calculate_unrealized_pnl (lot.py lines 101-110). -/
def Lot.calculate_unrealized_pnl (l : Lot) (current_price : ℚ)
    (current_fx_rate : ℚ) : ℚ :=
  if l.remaining_quantity ≤ 0 then 0
  else l.remaining_quantity * current_price * current_fx_rate -
    l.remaining_cost_basis * l.acquisition_fx_rate

/-- One entry of LotQueue._disposed_lots: (lot, quantity disposed, realized
P&L, disposal date).  The stored lot is the lot object as of the append
(the source appends a reference to the just-mutated lot). -/
structure DisposalEntry where
  lot : Lot
  quantity_disposed : ℚ
  realized_pnl : ℚ
  disposal_date : Int
deriving Repr, DecidableEq, Inhabited

/-- Embedding of src/recon/models/lot.py, class LotQueue.  allLots is the
internal deque self._lots, realizedPnlAcc is self._realized_pnl, and
disposedLots is self._disposed_lots. -/
structure LotQueue where
  symbol : String
  allLots : List Lot
  realizedPnlAcc : ℚ
  disposedLots : List DisposalEntry
deriving Repr, DecidableEq, Inhabited

/-- A fresh queue, as built by LotQueue.__init__ (lot.py lines 123-127). -/
def emptyQueue (symbol : String) : LotQueue :=
  { symbol := symbol, allLots := [], realizedPnlAcc := 0, disposedLots := [] }

/-- LotQueue.lots: the active (non-depleted) lots (lot.py lines 129-132). -/
def LotQueue.lots (q : LotQueue) : List Lot :=
  q.allLots.filter (fun l => ! l.is_depleted)

/-- LotQueue.total_quantity: sum of remaining_quantity over all lots in the
internal deque (lot.py lines 134-137). -/
def LotQueue.total_quantity (q : LotQueue) : ℚ :=
  (q.allLots.map Lot.remaining_quantity).sum

/-- LotQueue.total_cost_basis (lot.py lines 139-142). -/
def LotQueue.total_cost_basis (q : LotQueue) : ℚ :=
  (q.allLots.map Lot.remaining_cost_basis).sum

/-- LotQueue.realized_pnl (lot.py lines 151-154). -/
def LotQueue.realized_pnl (q : LotQueue) : ℚ :=
  q.realizedPnlAcc

/-- LotQueue.add_lot: append to the tail (lot.py lines 156-158). -/
def LotQueue.add_lot (q : LotQueue) (l : Lot) : LotQueue :=
  { q with allLots := q.allLots ++ [l] }

/-- The loop of LotQueue.dispose_fifo (lot.py lines 171-185): walk the lots
oldest-first; break when nothing is left to dispose, skip depleted lots,
otherwise dispose from the lot and record a disposal entry.  Returns the
updated lot list, the total realized P&L, and the disposal entries appended
during this call, in order. -/
def disposeWalk (lots : List Lot) (remaining_to_dispose sale_price : ℚ)
    (sale_date : Int) (sale_fx_rate : ℚ) :
    List Lot × ℚ × List DisposalEntry :=
  match lots with
  | [] => ([], 0, [])
  | l :: rest =>
    if remaining_to_dispose ≤ 0 then (l :: rest, 0, [])
    else if l.is_depleted then
      let r := disposeWalk rest remaining_to_dispose sale_price sale_date sale_fx_rate
      (l :: r.1, r.2.1, r.2.2)
    else
      let d := l.dispose remaining_to_dispose sale_price sale_date sale_fx_rate
      let r := disposeWalk rest (remaining_to_dispose - d.1.1) sale_price sale_date sale_fx_rate
      (d.2 :: r.1, d.1.2 + r.2.1,
        { lot := d.2, quantity_disposed := d.1.1, realized_pnl := d.1.2,
          disposal_date := sale_date } :: r.2.2)

/-- LotQueue.dispose_fifo (lot.py lines 160-192): run the disposal walk,
accumulate the realized P&L, append the disposal entries to the history,
and finally clean up depleted lots from the internal deque.  Returns
(total realized P&L, updated queue). -/
def LotQueue.dispose_fifo (q : LotQueue) (quantity sale_price : ℚ)
    (sale_date : Int) (sale_fx_rate : ℚ) : ℚ × LotQueue :=
  let w := disposeWalk q.allLots quantity sale_price sale_date sale_fx_rate
  (w.2.1,
   { q with
      allLots := w.1.filter (fun l => ! l.is_depleted),
      realizedPnlAcc := q.realizedPnlAcc + w.2.1,
      disposedLots := q.disposedLots ++ w.2.2 })

/-- LotQueue.calculate_unrealized_pnl (lot.py lines 194-200). -/
def LotQueue.calculate_unrealized_pnl (q : LotQueue) (current_price : ℚ)
    (current_fx_rate : ℚ) : ℚ :=
  (q.allLots.map (fun l => l.calculate_unrealized_pnl current_price current_fx_rate)).sum

/-- Specification-side description of FIFO consumption: the quantity taken
from each lot in order is min(remaining_quantity, quantity_left).  Used to
state what dispose_fifo consumes from each lot. -/
def fifoTake : List Lot → ℚ → List ℚ
  | [], _ => []
  | l :: rest, left =>
    min l.remaining_quantity left ::
      fifoTake rest (left - min l.remaining_quantity left)

/-! ### Basic lemmas about the disposal walk -/

lemma lot_eta (l : Lot) : { l with remaining_quantity := l.remaining_quantity } = l := rfl

/-- The quantity taken by Lot.dispose is min(remaining_quantity, quantity). -/
lemma dispose_qty (l : Lot) (quantity sale_price : ℚ) (sale_date : Int)
    (sale_fx_rate : ℚ) :
    (l.dispose quantity sale_price sale_date sale_fx_rate).1.1 =
      min l.remaining_quantity quantity := by
  simp only [Lot.dispose]
  rcases lt_or_le l.remaining_quantity quantity with h | h
  · rw [if_pos h, min_eq_left h.le]
  · rw [if_neg (not_lt.mpr h), min_eq_right h]

lemma dispose_pnl (l : Lot) (quantity sale_price : ℚ) (sale_date : Int)
    (sale_fx_rate : ℚ) :
    (l.dispose quantity sale_price sale_date sale_fx_rate).1.2 =
      min l.remaining_quantity quantity *
        (sale_price * sale_fx_rate - l.cost_per_unit * l.acquisition_fx_rate) := by
  have h := dispose_qty l quantity sale_price sale_date sale_fx_rate
  simp only [Lot.dispose] at h ⊢
  rw [h]; ring

lemma dispose_lot (l : Lot) (quantity sale_price : ℚ) (sale_date : Int)
    (sale_fx_rate : ℚ) :
    (l.dispose quantity sale_price sale_date sale_fx_rate).2 =
      { l with remaining_quantity :=
          l.remaining_quantity - min l.remaining_quantity quantity } := by
  have h := dispose_qty l quantity sale_price sale_date sale_fx_rate
  simp only [Lot.dispose] at h ⊢
  rw [h]

/-- At left = 0 the FIFO take is all zeros. -/
lemma fifoTake_zero (lots : List Lot)
    (h : ∀ l ∈ lots, 0 ≤ l.remaining_quantity) :
    fifoTake lots 0 = lots.map (fun _ => 0) := by
  induction lots with
  | nil => rfl
  | cons l rest ih =>
    have h0 : min l.remaining_quantity 0 = 0 :=
      min_eq_right (h l (List.mem_cons_self l rest))
    simp only [fifoTake, h0, sub_zero, List.map]
    exact congrArg _ (ih fun x hx => h x (List.mem_cons_of_mem l hx))

/-- Reducing every lot by a zero take leaves the lots unchanged. -/
lemma zip_sub_zero (lots : List Lot) :
    List.zipWith (fun l d => { l with remaining_quantity := l.remaining_quantity - d })
      lots (lots.map fun _ => (0:ℚ)) = lots := by
  induction lots with
  | nil => rfl
  | cons r rs ihr => simp only [List.map, List.zipWith, sub_zero, lot_eta, ihr]

/-- Zipping an all-zero take against any lots with a function vanishing at
zero sums to zero. -/
lemma zipWith_zeros_sum (f : ℚ → Lot → ℚ) (hf : ∀ l, f 0 l = 0) (lots : List Lot) :
    (List.zipWith f (lots.map fun _ => (0:ℚ)) lots).sum = 0 := by
  induction lots with
  | nil => rfl
  | cons r rs ihr => simp only [List.map, List.zipWith, List.sum_cons, hf, ihr, add_zero]

/-- The lot states after the disposal walk: each lot's remaining quantity is
reduced by its FIFO take. -/
lemma disposeWalk_lots (sale_price : ℚ) (sale_date : Int) (sale_fx_rate : ℚ)
    (lots : List Lot) :
    ∀ (left : ℚ), 0 ≤ left →
      (∀ l ∈ lots, 0 ≤ l.remaining_quantity) →
      (disposeWalk lots left sale_price sale_date sale_fx_rate).1 =
        List.zipWith (fun l d => { l with remaining_quantity := l.remaining_quantity - d })
          lots (fifoTake lots left) := by
  induction lots with
  | nil => intro left _ _; rfl
  | cons l rest ih =>
    intro left hleft hmem
    have hl : 0 ≤ l.remaining_quantity := hmem l (List.mem_cons_self l rest)
    have hrest : ∀ x ∈ rest, 0 ≤ x.remaining_quantity :=
      fun x hx => hmem x (List.mem_cons_of_mem l hx)
    by_cases h0 : left ≤ 0
    · have hz : left = 0 := le_antisymm h0 hleft
      subst hz
      have hmin : min l.remaining_quantity 0 = 0 := min_eq_right hl
      rw [fifoTake, hmin, sub_zero, fifoTake_zero rest hrest]
      simp only [disposeWalk, if_pos le_rfl, List.zipWith, sub_zero, lot_eta,
        zip_sub_zero]
    · push_neg at h0
      by_cases hdep : l.is_depleted = true
      · have hq0 : l.remaining_quantity = 0 := by
          have h1 : l.remaining_quantity ≤ 0 := by
            simpa [Lot.is_depleted] using hdep
          exact le_antisymm h1 hl
        have hmin : min l.remaining_quantity left = 0 := by
          rw [hq0]; exact min_eq_left h0.le
        rw [fifoTake, hmin]
        simp only [disposeWalk, if_neg (not_le.mpr h0), hdep, if_true, List.zipWith,
          sub_zero, lot_eta]
        exact congrArg _ (ih left hleft hrest)
      · have hmin_le : min l.remaining_quantity left ≤ left := min_le_right _ _
        rw [fifoTake]
        simp only [disposeWalk, if_neg (not_le.mpr h0), if_neg hdep, List.zipWith]
        rw [dispose_lot, dispose_qty]
        refine congrArg _ ?_
        exact ih (left - min l.remaining_quantity left) (by linarith) hrest

/-- The realized P&L of the disposal walk is the sum over lots of
fifo-take times (sale price x sale fx - cost per unit x acquisition fx). -/
lemma disposeWalk_pnl (sale_price : ℚ) (sale_date : Int) (sale_fx_rate : ℚ)
    (lots : List Lot) :
    ∀ (left : ℚ), 0 ≤ left →
      (∀ l ∈ lots, 0 ≤ l.remaining_quantity) →
      (disposeWalk lots left sale_price sale_date sale_fx_rate).2.1 =
        (List.zipWith
          (fun d l => d * (sale_price * sale_fx_rate - l.cost_per_unit * l.acquisition_fx_rate))
          (fifoTake lots left) lots).sum := by
  induction lots with
  | nil => intro left _ _; rfl
  | cons l rest ih =>
    intro left hleft hmem
    have hl : 0 ≤ l.remaining_quantity := hmem l (List.mem_cons_self l rest)
    have hrest : ∀ x ∈ rest, 0 ≤ x.remaining_quantity :=
      fun x hx => hmem x (List.mem_cons_of_mem l hx)
    by_cases h0 : left ≤ 0
    · have hz : left = 0 := le_antisymm h0 hleft
      subst hz
      have hmin : min l.remaining_quantity 0 = 0 := min_eq_right hl
      rw [fifoTake, hmin, sub_zero, fifoTake_zero rest hrest]
      simp only [disposeWalk, if_pos le_rfl, List.zipWith, List.sum_cons, zero_mul,
        zero_add]
      exact (zipWith_zeros_sum _ (fun x => zero_mul _) rest).symm
    · push_neg at h0
      by_cases hdep : l.is_depleted = true
      · have hq0 : l.remaining_quantity = 0 := by
          have h1 : l.remaining_quantity ≤ 0 := by
            simpa [Lot.is_depleted] using hdep
          exact le_antisymm h1 hl
        have hmin : min l.remaining_quantity left = 0 := by
          rw [hq0]; exact min_eq_left h0.le
        rw [fifoTake, hmin]
        simp only [disposeWalk, if_neg (not_le.mpr h0), hdep, if_true, List.zipWith,
          List.sum_cons, zero_mul, zero_add, sub_zero]
        exact ih left hleft hrest
      · rw [fifoTake]
        simp only [disposeWalk, if_neg (not_le.mpr h0), if_neg hdep, List.zipWith,
          List.sum_cons]
        rw [dispose_pnl, dispose_qty]
        have hge : 0 ≤ left - min l.remaining_quantity left := by
          have := min_le_right l.remaining_quantity left; linarith
        rw [ih (left - min l.remaining_quantity left) hge hrest]

/-- Folding add_lot over a list of lots starting from a queue appends them
in order. -/
lemma foldl_add_lot (q : LotQueue) (lots : List Lot) :
    (lots.foldl LotQueue.add_lot q).allLots = q.allLots ++ lots := by
  induction lots generalizing q with
  | nil => simp [List.foldl]
  | cons l rest ih => simp [List.foldl, LotQueue.add_lot, ih]

/-- When every acquisition FX rate is 1, the per-lot P&L term simplifies to
take times (sale price - cost per unit), for a sale FX rate of 1. -/
lemma zip_pnl_congr (sale_price : ℚ) :
    ∀ (ds : List ℚ) (lots : List Lot), (∀ l ∈ lots, l.acquisition_fx_rate = 1) →
      (List.zipWith
        (fun d l => d * (sale_price * 1 - l.cost_per_unit * l.acquisition_fx_rate))
        ds lots).sum =
      (List.zipWith (fun d l => d * (sale_price - l.cost_per_unit)) ds lots).sum := by
  intro ds
  induction ds with
  | nil => intro lots _; rfl
  | cons d ds ih =>
    intro lots hfx
    cases lots with
    | nil => rfl
    | cons l rest =>
      have hl := hfx l (List.mem_cons_self l rest)
      have hrest := fun x hx => hfx x (List.mem_cons_of_mem l hx)
      simp only [List.zipWith, List.sum_cons]
      rw [ih rest hrest, hl]
      ring_nf

/-- C1: For every LotQueue holding lots added oldest-first by add_lot, a call
to dispose_fifo with a requested quantity not exceeding the total held
quantity consumes lots oldest-first, taking min(remaining_quantity,
quantity_left) from each lot (the fifoTake list), and returns realized P&L
equal to the sum over consumed lots of
disposed_qty_i * (sale_price * sale_fx_rate - cost_per_unit_i * acquisition_fx_rate_i);
with all FX rates equal to 1 the realized P&L equals the sum of
disposed_qty_i * (sale_price - cost_per_unit_i) exactly. -/
theorem dispose_fifo_oldest_first_pnl (s : String) (lots : List Lot)
    (quantity sale_price : ℚ) (sale_date : Int) (sale_fx_rate : ℚ)
    (hrem : ∀ l ∈ lots, 0 ≤ l.remaining_quantity)
    (hq0 : 0 ≤ quantity)
    (hqle : quantity ≤ (lots.map Lot.remaining_quantity).sum) :
    ((lots.foldl LotQueue.add_lot (emptyQueue s)).dispose_fifo quantity sale_price
        sale_date sale_fx_rate).1 =
      (List.zipWith
        (fun d l => d * (sale_price * sale_fx_rate - l.cost_per_unit * l.acquisition_fx_rate))
        (fifoTake lots quantity) lots).sum ∧
    ((lots.foldl LotQueue.add_lot (emptyQueue s)).dispose_fifo quantity sale_price
        sale_date sale_fx_rate).2.allLots =
      (List.zipWith (fun l d => { l with remaining_quantity := l.remaining_quantity - d })
        lots (fifoTake lots quantity)).filter (fun l => ! l.is_depleted) ∧
    (sale_fx_rate = 1 → (∀ l ∈ lots, l.acquisition_fx_rate = 1) →
      ((lots.foldl LotQueue.add_lot (emptyQueue s)).dispose_fifo quantity sale_price
          sale_date sale_fx_rate).1 =
        (List.zipWith (fun d l => d * (sale_price - l.cost_per_unit))
          (fifoTake lots quantity) lots).sum) := by
  have hall : (lots.foldl LotQueue.add_lot (emptyQueue s)).allLots = lots := by
    rw [foldl_add_lot]; rfl
  refine ⟨?_, ?_, ?_⟩
  · simp only [LotQueue.dispose_fifo, hall]
    exact disposeWalk_pnl sale_price sale_date sale_fx_rate lots quantity hq0 hrem
  · simp only [LotQueue.dispose_fifo, hall]
    rw [disposeWalk_lots sale_price sale_date sale_fx_rate lots quantity hq0 hrem]
  · intro hsf hfx
    subst hsf
    simp only [LotQueue.dispose_fifo, hall]
    rw [disposeWalk_pnl sale_price sale_date 1 lots quantity hq0 hrem]
    exact zip_pnl_congr sale_price (fifoTake lots quantity) lots hfx

/-- Sample lots for the concrete FIFO check: 2 units at cost 10 each, then
3 units at cost 20 each. -/
def sampleLotA : Lot :=
  { lot_id := 1, symbol := "AAA", acquisition_date := 0, acquisition_price := 10,
    acquisition_quantity := 2, acquisition_cost := 20, acquisition_fx_rate := 1,
    remaining_quantity := 2, allocated_fees := 0 }

def sampleLotB : Lot :=
  { lot_id := 2, symbol := "AAA", acquisition_date := 1, acquisition_price := 20,
    acquisition_quantity := 3, acquisition_cost := 60, acquisition_fx_rate := 1,
    remaining_quantity := 3, allocated_fees := 0 }

/-- Witness for C1: selling 4 of the 5 held units at price 30 realizes
2*(30-10) + 2*(30-20) = 60. -/
theorem dispose_fifo_oldest_first_pnl_witness :
    (([sampleLotA, sampleLotB].foldl LotQueue.add_lot (emptyQueue "AAA")).dispose_fifo
        4 30 7 1).1 = 60 := by
  have h := dispose_fifo_oldest_first_pnl "AAA" [sampleLotA, sampleLotB] 4 30 7 1
    (by norm_num [sampleLotA, sampleLotB]) (by norm_num)
    (by norm_num [sampleLotA, sampleLotB])
  rw [h.1]
  norm_num [sampleLotA, sampleLotB, fifoTake, Lot.cost_per_unit]

/-! ### Quantity bookkeeping lemmas -/

/-- The FIFO take list has one entry per lot. -/
lemma fifoTake_length (lots : List Lot) :
    ∀ left, (fifoTake lots left).length = lots.length := by
  induction lots with
  | nil => intro left; rfl
  | cons l rest ih =>
    intro left
    simp only [fifoTake, List.length_cons, ih]

/-- The FIFO take sums to the requested quantity when it does not exceed
the total held quantity. -/
lemma fifoTake_sum (lots : List Lot) :
    ∀ left, (∀ l ∈ lots, 0 ≤ l.remaining_quantity) → 0 ≤ left →
      left ≤ (lots.map Lot.remaining_quantity).sum →
      (fifoTake lots left).sum = left := by
  induction lots with
  | nil =>
    intro left _ h0 hle
    simp only [List.map, List.sum_nil] at hle
    simp [fifoTake]
    linarith
  | cons l rest ih =>
    intro left hmem h0 hle
    have hl := hmem l (List.mem_cons_self l rest)
    have hrest := fun x hx => hmem x (List.mem_cons_of_mem l hx)
    have hsum_rest : 0 ≤ (rest.map Lot.remaining_quantity).sum :=
      List.sum_nonneg (by
        intro x hx
        rcases List.mem_map.mp hx with ⟨y, hy, rfl⟩
        exact hrest y hy)
    simp only [List.map, List.sum_cons] at hle
    simp only [fifoTake, List.sum_cons]
    have hmin_le : min l.remaining_quantity left ≤ left := min_le_right _ _
    have hmin_le2 : min l.remaining_quantity left ≤ l.remaining_quantity := min_le_left _ _
    have hnext : left - min l.remaining_quantity left ≤ (rest.map Lot.remaining_quantity).sum := by
      rcases le_total l.remaining_quantity left with h | h
      · rw [min_eq_left h]; linarith
      · rw [min_eq_right h]; linarith
    rw [ih (left - min l.remaining_quantity left) hrest (by linarith) hnext]
    ring

/-- Reducing each lot by its take subtracts the take sum from the
total remaining quantity. -/
lemma zip_reduce_sum (lots : List Lot) :
    ∀ (ds : List ℚ), ds.length = lots.length →
      ((List.zipWith (fun l d => { l with remaining_quantity := l.remaining_quantity - d })
          lots ds).map Lot.remaining_quantity).sum =
        (lots.map Lot.remaining_quantity).sum - ds.sum := by
  induction lots with
  | nil => intro ds hlen; simp at hlen; subst hlen; simp
  | cons l rest ih =>
    intro ds hlen
    cases ds with
    | nil => simp at hlen
    | cons d ds2 =>
      simp only [List.length_cons, Nat.succ.injEq] at hlen
      simp only [List.zipWith, List.map, List.sum_cons, ih ds2 hlen]
      ring

/-- Reduced lots keep non-negative remaining quantities when the take is
the FIFO take. -/
lemma zip_reduce_nonneg (lots : List Lot) :
    ∀ left, (∀ l ∈ lots, 0 ≤ l.remaining_quantity) →
      ∀ l2 ∈ List.zipWith (fun l d => { l with remaining_quantity := l.remaining_quantity - d })
          lots (fifoTake lots left), 0 ≤ l2.remaining_quantity := by
  induction lots with
  | nil => intro left _ l2 h; simp [fifoTake] at h
  | cons l rest ih =>
    intro left hmem l2 h2
    have hl := hmem l (List.mem_cons_self l rest)
    have hrest := fun x hx => hmem x (List.mem_cons_of_mem l hx)
    simp only [fifoTake, List.zipWith, List.mem_cons] at h2
    rcases h2 with h2 | h2
    · subst h2
      have : min l.remaining_quantity left ≤ l.remaining_quantity := min_le_left _ _
      simp only []
      linarith
    · exact ih (left - min l.remaining_quantity left) hrest l2 h2

/-- Removing depleted lots does not change the total remaining quantity,
as long as remaining quantities are non-negative. -/
lemma filter_depleted_sum (lots : List Lot)
    (h : ∀ l ∈ lots, 0 ≤ l.remaining_quantity) :
    ((lots.filter (fun l => ! l.is_depleted)).map Lot.remaining_quantity).sum =
      (lots.map Lot.remaining_quantity).sum := by
  induction lots with
  | nil => rfl
  | cons l rest ih =>
    have hl := h l (List.mem_cons_self l rest)
    have hrest := fun x hx => h x (List.mem_cons_of_mem l hx)
    by_cases hdep : l.is_depleted = true
    · have hq0 : l.remaining_quantity = 0 :=
        le_antisymm (by simpa [Lot.is_depleted] using hdep) hl
      simp [List.filter_cons, hdep, ih hrest, hq0]
    · simp [List.filter_cons, hdep, ih hrest]

/-- Disposal leaves the queue total reduced by exactly the requested
quantity (when within the held total), and keeps quantities non-negative. -/
lemma dispose_fifo_total (q : LotQueue) (quantity sale_price : ℚ)
    (sale_date : Int) (sale_fx_rate : ℚ)
    (hrem : ∀ l ∈ q.allLots, 0 ≤ l.remaining_quantity)
    (h0 : 0 ≤ quantity) (hle : quantity ≤ q.total_quantity) :
    (q.dispose_fifo quantity sale_price sale_date sale_fx_rate).2.total_quantity =
      q.total_quantity - quantity ∧
    ∀ l ∈ (q.dispose_fifo quantity sale_price sale_date sale_fx_rate).2.allLots,
      0 ≤ l.remaining_quantity := by
  have hlots := disposeWalk_lots sale_price sale_date sale_fx_rate q.allLots quantity h0 hrem
  have hzn := zip_reduce_nonneg q.allLots quantity hrem
  constructor
  · simp only [LotQueue.dispose_fifo, LotQueue.total_quantity] at *
    rw [hlots, filter_depleted_sum _ hzn,
      zip_reduce_sum q.allLots (fifoTake q.allLots quantity) (fifoTake_length q.allLots quantity),
      fifoTake_sum q.allLots quantity hrem h0 hle]
  · intro l hl
    simp only [LotQueue.dispose_fifo] at hl
    rw [hlots] at hl
    exact hzn l (List.mem_of_mem_filter hl)

/-- add_lot adds the new lot's remaining quantity to the queue total. -/
lemma add_lot_total (q : LotQueue) (l : Lot) :
    (q.add_lot l).total_quantity = q.total_quantity + l.remaining_quantity := by
  simp [LotQueue.add_lot, LotQueue.total_quantity]

/-! ### Operation sequences over a LotQueue (for the conservation invariant) -/

/-- The operations a LotQueue undergoes during transaction replay: add_lot
for a buy, dispose_fifo for a sell (the two mutators of LotQueue state used
by the calculators). -/
inductive LedgerOp where
  | addLot (l : Lot)
  | sell (quantity sale_price : ℚ) (sale_date : Int) (sale_fx_rate : ℚ)
deriving Repr

def applyOp (q : LotQueue) : LedgerOp → LotQueue
  | .addLot l => q.add_lot l
  | .sell quantity sale_price sale_date sale_fx_rate =>
      (q.dispose_fifo quantity sale_price sale_date sale_fx_rate).2

def runOps (q : LotQueue) : List LedgerOp → LotQueue
  | [] => q
  | op :: rest => runOps (applyOp q op) rest

def opDate : LedgerOp → Int
  | .addLot l => l.acquisition_date
  | .sell _ _ sale_date _ => sale_date

def datesSorted : List Int → Bool
  | [] => true
  | [_] => true
  | a :: b :: rest => decide (a ≤ b) && datesSorted (b :: rest)

/-- Chronology preservation: operation dates are non-decreasing. -/
def chronological (ops : List LedgerOp) : Bool :=
  datesSorted (ops.map opDate)

/-- Validity of an operation sequence: added lots are fresh lots (their
remaining quantity is their non-negative acquisition quantity, as
established by Lot.__post_init__ for a fresh buy), and no disposal requests
more than the quantity then held. -/
def validOps : LotQueue → List LedgerOp → Bool
  | _, [] => true
  | q, .addLot l :: rest =>
      decide (0 ≤ l.acquisition_quantity) &&
        decide (l.remaining_quantity = l.acquisition_quantity) &&
        validOps (q.add_lot l) rest
  | q, .sell quantity sale_price sale_date sale_fx_rate :: rest =>
      decide (0 ≤ quantity) && decide (quantity ≤ q.total_quantity) &&
        validOps ((q.dispose_fifo quantity sale_price sale_date sale_fx_rate).2) rest

/-- Total quantity acquired by the add_lot calls of a sequence. -/
def acquiredTotal (ops : List LedgerOp) : ℚ :=
  (ops.map (fun op => match op with
    | .addLot l => l.acquisition_quantity
    | .sell _ _ _ _ => 0)).sum

/-- Total quantity disposed by the dispose_fifo calls of a sequence. -/
def disposedTotal (ops : List LedgerOp) : ℚ :=
  (ops.map (fun op => match op with
    | .addLot _ => 0
    | .sell quantity _ _ _ => quantity)).sum

lemma runOps_total (ops : List LedgerOp) :
    ∀ q : LotQueue, (∀ l ∈ q.allLots, 0 ≤ l.remaining_quantity) →
      validOps q ops = true →
      (runOps q ops).total_quantity =
        q.total_quantity + acquiredTotal ops - disposedTotal ops := by
  induction ops with
  | nil =>
    intro q _ _
    simp [runOps, acquiredTotal, disposedTotal]
  | cons op rest ih =>
    intro q hq hval
    cases op with
    | addLot l =>
      simp only [validOps, Bool.and_eq_true, decide_eq_true_eq] at hval
      obtain ⟨⟨hq0, hfresh⟩, hval2⟩ := hval
      have hnn : ∀ x ∈ (q.add_lot l).allLots, 0 ≤ x.remaining_quantity := by
        intro x hx
        simp only [LotQueue.add_lot, List.mem_append, List.mem_singleton] at hx
        rcases hx with hx | rfl
        · exact hq x hx
        · rw [hfresh]; exact hq0
      have hstep := ih (q.add_lot l) hnn hval2
      simp only [runOps, applyOp] at hstep ⊢
      rw [hstep, add_lot_total, hfresh]
      simp only [acquiredTotal, disposedTotal, List.map, List.sum_cons]
      ring
    | sell quantity sale_price sale_date sale_fx_rate =>
      simp only [validOps, Bool.and_eq_true, decide_eq_true_eq] at hval
      obtain ⟨⟨h0, hle⟩, hval2⟩ := hval
      have hd := dispose_fifo_total q quantity sale_price sale_date sale_fx_rate hq h0 hle
      have hstep := ih _ hd.2 hval2
      simp only [runOps, applyOp] at hstep ⊢
      rw [hstep, hd.1]
      simp only [acquiredTotal, disposedTotal, List.map, List.sum_cons]
      ring

/-- C3: For every chronology-preserving sequence of add_lot and dispose_fifo
operations on an initially empty LotQueue, in which no disposal requests
more than the quantity then held, the final total_quantity equals the total
quantity acquired by add_lot calls minus the total quantity disposed by
dispose_fifo calls. -/
theorem total_quantity_conservation (s : String) (ops : List LedgerOp)
    (hchron : chronological ops = true)
    (hvalid : validOps (emptyQueue s) ops = true) :
    (runOps (emptyQueue s) ops).total_quantity =
      acquiredTotal ops - disposedTotal ops := by
  have h := runOps_total ops (emptyQueue s) (by simp [emptyQueue]) hvalid
  rw [h]
  simp [emptyQueue, LotQueue.total_quantity]

def sampleLotC : Lot :=
  { lot_id := 3, symbol := "BBB", acquisition_date := 0, acquisition_price := 5,
    acquisition_quantity := 2, acquisition_cost := 10, acquisition_fx_rate := 1,
    remaining_quantity := 2, allocated_fees := 0 }

/-- Witness for C3: buy 2 then sell 1, chronologically; the final total is
2 - 1 = 1. -/
theorem total_quantity_conservation_witness :
    chronological [LedgerOp.addLot sampleLotC, LedgerOp.sell 1 8 3 1] = true ∧
    validOps (emptyQueue "BBB") [LedgerOp.addLot sampleLotC, LedgerOp.sell 1 8 3 1] = true ∧
    (runOps (emptyQueue "BBB") [LedgerOp.addLot sampleLotC, LedgerOp.sell 1 8 3 1]).total_quantity =
      acquiredTotal [LedgerOp.addLot sampleLotC, LedgerOp.sell 1 8 3 1] -
        disposedTotal [LedgerOp.addLot sampleLotC, LedgerOp.sell 1 8 3 1] := by
  have hc : chronological [LedgerOp.addLot sampleLotC, LedgerOp.sell 1 8 3 1] = true := by
    norm_num [chronological, datesSorted, opDate, sampleLotC]
  have hv : validOps (emptyQueue "BBB") [LedgerOp.addLot sampleLotC, LedgerOp.sell 1 8 3 1] = true := by
    norm_num [validOps, emptyQueue, LotQueue.add_lot, LotQueue.total_quantity,
      LotQueue.dispose_fifo, disposeWalk, Lot.dispose, Lot.is_depleted,
      Lot.cost_per_unit, sampleLotC]
  exact ⟨hc, hv, total_quantity_conservation "BBB" _ hc hv⟩

/-! ### Lot identity through the walk, and the cleanup step -/

/-- The disposal walk preserves the identity (lot_id) of every lot in
order. -/
lemma disposeWalk_ids (lots : List Lot) :
    ∀ (left sale_price : ℚ) (sale_date : Int) (sale_fx_rate : ℚ),
      ((disposeWalk lots left sale_price sale_date sale_fx_rate).1.map Lot.lot_id) =
        lots.map Lot.lot_id := by
  induction lots with
  | nil => intros; rfl
  | cons l rest ih =>
    intro left sale_price sale_date sale_fx_rate
    by_cases h0 : left ≤ 0
    · simp [disposeWalk, h0]
    · by_cases hdep : l.is_depleted = true
      · simp [disposeWalk, h0, hdep, ih]
      · simp [disposeWalk, h0, hdep, ih, Lot.dispose]

def sampleLotD : Lot :=
  { lot_id := 4, symbol := "CCC", acquisition_date := 0, acquisition_price := 10,
    acquisition_quantity := 1, acquisition_cost := 10, acquisition_fx_rate := 1,
    remaining_quantity := 1, allocated_fees := 0 }

def sampleQueueD : LotQueue :=
  { symbol := "CCC", allLots := [sampleLotD], realizedPnlAcc := 0, disposedLots := [] }

/-- Counterexample to C5 as stated: a queue holding one lot of quantity 1,
after dispose_fifo of quantity 1, no longer contains the lot in its lot
collection — the cleanup step at the end of dispose_fifo (lot.py line 190)
physically removes depleted lots. -/
theorem depleted_lot_removed_counterexample :
    sampleQueueD.allLots ≠ [] ∧
    ((sampleQueueD.dispose_fifo 1 12 3 1).2).allLots = [] := by
  constructor
  · simp [sampleQueueD]
  · norm_num [sampleQueueD, sampleLotD, LotQueue.dispose_fifo, disposeWalk,
      Lot.dispose, Lot.is_depleted, Lot.cost_per_unit, List.filter]

/-- C5 amended: a lot whose remaining_quantity reaches zero during
dispose_fifo is physically removed from the queue's lot collection by the
cleanup step at the end of the call; every lot still present afterwards is
non-depleted and corresponds (by lot_id) to a lot present before the call,
and the prior disposal history is preserved as a prefix of the new
(append-only) history. -/
theorem dispose_fifo_removes_depleted (q : LotQueue) (quantity sale_price : ℚ)
    (sale_date : Int) (sale_fx_rate : ℚ) :
    (∀ l2 ∈ (q.dispose_fifo quantity sale_price sale_date sale_fx_rate).2.allLots,
        l2.is_depleted = false ∧ ∃ l1 ∈ q.allLots, l1.lot_id = l2.lot_id) ∧
    ∃ appended,
      (q.dispose_fifo quantity sale_price sale_date sale_fx_rate).2.disposedLots =
        q.disposedLots ++ appended := by
  constructor
  · intro l2 h2
    simp only [LotQueue.dispose_fifo, List.mem_filter, Bool.not_eq_eq_eq_not,
      Bool.not_true] at h2
    obtain ⟨hmem, hdep⟩ := h2
    refine ⟨by simpa using hdep, ?_⟩
    have hid : l2.lot_id ∈ (disposeWalk q.allLots quantity sale_price sale_date
        sale_fx_rate).1.map Lot.lot_id := List.mem_map_of_mem Lot.lot_id hmem
    rw [disposeWalk_ids] at hid
    rcases List.mem_map.mp hid with ⟨l1, h1, hide⟩
    exact ⟨l1, h1, hide⟩
  · exact ⟨(disposeWalk q.allLots quantity sale_price sale_date sale_fx_rate).2.2, rfl⟩

/-! ### Oversell behaviour of dispose_fifo -/

/-- When the requested quantity is at least the total held, the FIFO take
is every lot's full remaining quantity. -/
lemma fifoTake_oversell (lots : List Lot) :
    ∀ left, (∀ l ∈ lots, 0 ≤ l.remaining_quantity) →
      (lots.map Lot.remaining_quantity).sum ≤ left →
      fifoTake lots left = lots.map Lot.remaining_quantity := by
  induction lots with
  | nil => intros; rfl
  | cons l rest ih =>
    intro left hmem hle
    have hl := hmem l (List.mem_cons_self l rest)
    have hrest := fun x hx => hmem x (List.mem_cons_of_mem l hx)
    have hsum_rest : 0 ≤ (rest.map Lot.remaining_quantity).sum :=
      List.sum_nonneg (by
        intro x hx
        rcases List.mem_map.mp hx with ⟨y, hy, rfl⟩
        exact hrest y hy)
    simp only [List.map, List.sum_cons] at hle
    have hlle : l.remaining_quantity ≤ left := by linarith
    simp only [fifoTake, List.map, min_eq_left hlle]
    rw [ih (left - l.remaining_quantity) hrest (by linarith)]

/-- Taking each lot's full remaining quantity zeroes every lot. -/
lemma zip_reduce_self (lots : List Lot) :
    List.zipWith (fun l d => { l with remaining_quantity := l.remaining_quantity - d })
      lots (lots.map Lot.remaining_quantity) =
      lots.map (fun l => { l with remaining_quantity := 0 }) := by
  induction lots with
  | nil => rfl
  | cons l rest ih => simp only [List.map, List.zipWith, sub_self, ih]

/-- Zipping a function against the remaining quantities of the same lots is
a plain map. -/
lemma zip_map_self_sum (f : ℚ → Lot → ℚ) (lots : List Lot) :
    (List.zipWith f (lots.map Lot.remaining_quantity) lots).sum =
      (lots.map (fun l => f l.remaining_quantity l)).sum := by
  induction lots with
  | nil => rfl
  | cons l rest ih => simp only [List.map, List.zipWith, List.sum_cons, ih]

/-- C6: a dispose_fifo request strictly greater than the total held quantity
silently disposes only what is available: after the walk every lot's
remaining quantity is zero, the queue retains no lots, and the returned
realized P&L is computed over only the actually-held quantities. -/
theorem dispose_fifo_oversell (q : LotQueue) (quantity sale_price : ℚ)
    (sale_date : Int) (sale_fx_rate : ℚ)
    (hrem : ∀ l ∈ q.allLots, 0 ≤ l.remaining_quantity)
    (hover : q.total_quantity < quantity) :
    (∀ l ∈ (disposeWalk q.allLots quantity sale_price sale_date sale_fx_rate).1,
        l.remaining_quantity = 0) ∧
    (q.dispose_fifo quantity sale_price sale_date sale_fx_rate).2.allLots = [] ∧
    (q.dispose_fifo quantity sale_price sale_date sale_fx_rate).2.total_quantity = 0 ∧
    (q.dispose_fifo quantity sale_price sale_date sale_fx_rate).1 =
      (q.allLots.map (fun l =>
        l.remaining_quantity *
          (sale_price * sale_fx_rate - l.cost_per_unit * l.acquisition_fx_rate))).sum := by
  have htot : 0 ≤ q.total_quantity :=
    List.sum_nonneg (by
      intro x hx
      rcases List.mem_map.mp hx with ⟨y, hy, rfl⟩
      exact hrem y hy)
  have hq0 : 0 ≤ quantity := le_of_lt (lt_of_le_of_lt htot hover)
  have hle : (q.allLots.map Lot.remaining_quantity).sum ≤ quantity := hover.le
  have hwalk : (disposeWalk q.allLots quantity sale_price sale_date sale_fx_rate).1 =
      q.allLots.map (fun l => { l with remaining_quantity := 0 }) := by
    rw [disposeWalk_lots sale_price sale_date sale_fx_rate q.allLots quantity hq0 hrem,
      fifoTake_oversell q.allLots quantity hrem hle, zip_reduce_self]
  have hzero : ∀ l ∈ (disposeWalk q.allLots quantity sale_price sale_date sale_fx_rate).1,
      l.remaining_quantity = 0 := by
    intro l hl
    rw [hwalk] at hl
    rcases List.mem_map.mp hl with ⟨y, _, rfl⟩
    rfl
  have hempty : (q.dispose_fifo quantity sale_price sale_date sale_fx_rate).2.allLots = [] := by
    simp only [LotQueue.dispose_fifo]
    rw [List.filter_eq_nil_iff]
    intro a ha
    have := hzero a ha
    simp [Lot.is_depleted, this]
  refine ⟨hzero, hempty, ?_, ?_⟩
  · simp only [LotQueue.total_quantity, hempty, List.map_nil, List.sum_nil]
  · simp only [LotQueue.dispose_fifo]
    rw [disposeWalk_pnl sale_price sale_date sale_fx_rate q.allLots quantity hq0 hrem,
      fifoTake_oversell q.allLots quantity hrem hle, zip_map_self_sum]

def sampleLotE : Lot :=
  { lot_id := 5, symbol := "DDD", acquisition_date := 0, acquisition_price := 5,
    acquisition_quantity := 2, acquisition_cost := 10, acquisition_fx_rate := 1,
    remaining_quantity := 2, allocated_fees := 0 }

def sampleQueueE : LotQueue :=
  { symbol := "DDD", allLots := [sampleLotE], realizedPnlAcc := 0, disposedLots := [] }

/-- Witness for C6: selling 5 when only 2 are held disposes the 2 held
units, realizing 2*(9-5) = 8, and empties the queue. -/
theorem dispose_fifo_oversell_witness :
    (sampleQueueE.dispose_fifo 5 9 4 1).1 = 8 ∧
    (sampleQueueE.dispose_fifo 5 9 4 1).2.allLots = [] := by
  have h := dispose_fifo_oversell sampleQueueE 5 9 4 1
    (by norm_num [sampleQueueE, sampleLotE])
    (by norm_num [sampleQueueE, sampleLotE, LotQueue.total_quantity])
  refine ⟨?_, h.2.1⟩
  rw [h.2.2.2]
  norm_num [sampleQueueE, sampleLotE, Lot.cost_per_unit]

/-! ### Reconciliation results (src/recon/models/performance.py) -/

/-- Embedding of performance.py, ReconciliationStatus. -/
inductive ReconciliationStatus where
  | PASS
  | FAIL
  | WARNING
  | NOT_APPLICABLE
deriving Repr, DecidableEq

/-- Embedding of performance.py, ReconciliationResult (the fields derived in
__post_init__ are stored). -/
structure ReconciliationResult where
  metric_name : String
  calculated_value : ℚ
  expected_value : ℚ
  tolerance : ℚ
  difference : ℚ
  status : ReconciliationStatus
deriving Repr, DecidableEq

/-- Construction of a ReconciliationResult (performance.py lines 57-80):
__post_init__ computes difference = calculated - expected once, and sets
status = PASS if abs(difference) <= tolerance else FAIL. -/
def mkReconciliationResult (metric_name : String)
    (calculated_value expected_value tolerance : ℚ) : ReconciliationResult :=
  let difference := calculated_value - expected_value
  { metric_name := metric_name
    calculated_value := calculated_value
    expected_value := expected_value
    tolerance := tolerance
    difference := difference
    status := if |difference| ≤ tolerance then ReconciliationStatus.PASS
      else ReconciliationStatus.FAIL }

/-- C2: a ReconciliationResult's difference equals calculated - expected
(signed); its status is PASS iff the absolute difference is within
tolerance, FAIL otherwise; in particular calculated=100.004,
expected=100.00, tolerance=0.01 yields PASS and calculated=100.02,
expected=100.00, tolerance=0.01 yields FAIL. -/
theorem reconciliation_difference_and_status (metric_name : String)
    (calculated_value expected_value tolerance : ℚ) :
    (mkReconciliationResult metric_name calculated_value expected_value
        tolerance).difference = calculated_value - expected_value ∧
    ((mkReconciliationResult metric_name calculated_value expected_value
        tolerance).status = ReconciliationStatus.PASS ↔
      |calculated_value - expected_value| ≤ tolerance) ∧
    ((mkReconciliationResult metric_name calculated_value expected_value
        tolerance).status = ReconciliationStatus.FAIL ↔
      ¬ |calculated_value - expected_value| ≤ tolerance) ∧
    (mkReconciliationResult metric_name (100.004 : ℚ) 100 (0.01 : ℚ)).status =
      ReconciliationStatus.PASS ∧
    (mkReconciliationResult metric_name (100.02 : ℚ) 100 (0.01 : ℚ)).status =
      ReconciliationStatus.FAIL := by
  refine ⟨rfl, ?_, ?_, ?_, ?_⟩
  · simp only [mkReconciliationResult]
    split_ifs with h <;> simp [h]
  · simp only [mkReconciliationResult]
    split_ifs with h <;> simp [h]
  · simp only [mkReconciliationResult]
    rw [if_pos (by rw [abs_le]; constructor <;> norm_num)]
  · simp only [mkReconciliationResult]
    rw [if_neg (by rw [abs_le]; push_neg; intro h; norm_num)]

/-! ### Transactions and the lot tracking service
(src/recon/models/enums.py, src/recon/models/transaction.py,
src/recon/services/lot_tracking_service.py) -/

/-- Embedding of enums.py, TransactionType. -/
inductive TransactionType where
  | DEPOSIT
  | WITHDRAWAL
  | BUY
  | SELL
  | DIVIDEND
  | INTEREST
  | COUPON
  | STOCK_SPLIT
  | REVERSE_SPLIT
  | SPIN_OFF
  | MERGER
  | OPTION_BUY
  | OPTION_SELL
  | OPTION_EXERCISE
  | OPTION_ASSIGNMENT
  | OPTION_EXPIRY
  | FEE
  | COMMISSION
  | TRANSFER_IN
  | TRANSFER_OUT
  | FX_TRADE
deriving Repr, DecidableEq

/-- TransactionType.is_buy (enums.py lines 46-49). -/
def TransactionType.is_buy : TransactionType → Bool
  | .BUY => true
  | .OPTION_BUY => true
  | .DEPOSIT => true
  | .TRANSFER_IN => true
  | _ => false

/-- TransactionType.is_sell (enums.py lines 51-54). -/
def TransactionType.is_sell : TransactionType → Bool
  | .SELL => true
  | .OPTION_SELL => true
  | .WITHDRAWAL => true
  | .TRANSFER_OUT => true
  | _ => false

/-- Embedding of models/transaction.py, Transaction: the fields read by the
lot tracking service (asset-specific optional fields omitted). -/
structure Transaction where
  transaction_id : Nat
  symbol : String
  transaction_type : TransactionType
  transaction_date : Int
  quantity : ℚ
  price : ℚ
  net_amount : ℚ
  fx_rate : ℚ
  total_fees : ℚ
deriving Repr, DecidableEq

/-- The Lot constructed by LotTrackingService._process_buy (and identically
by PnLCalculator._process_buy); Lot.__post_init__ sets remaining_quantity
to the acquisition quantity of the fresh lot.  The freshly drawn UUID is
modelled as the lot_id argument. -/
def mkLotFromBuy (lot_id : Nat) (txn : Transaction) : Lot :=
  { lot_id := lot_id
    symbol := txn.symbol
    acquisition_date := txn.transaction_date
    acquisition_price := txn.price
    acquisition_quantity := txn.quantity
    acquisition_cost := txn.net_amount
    acquisition_fx_rate := txn.fx_rate
    remaining_quantity := txn.quantity
    allocated_fees := txn.total_fees }

/-- The result dicts returned by LotTrackingService.process_transaction,
as a tagged variant keyed by the "action" field. -/
inductive ServiceResult where
  | lot_created (lot_id : Nat) (symbol : String) (quantity cost_basis : ℚ)
  | sell_error (symbol : String)
  | sell_warning (requested held : ℚ)
  | lots_disposed (symbol : String) (quantity_sold realized_pnl remaining : ℚ)
  | split_error (symbol : String)
  | split_processed (symbol : String) (additional_shares factor : ℚ)
  | no_action
deriving Repr, DecidableEq

/-- Embedding of LotTrackingService: the dict self._queues as an
association list. -/
structure LotTrackingService where
  queues : List (String × LotQueue)
deriving Repr, DecidableEq

/-- Update-or-insert for the queues dict. -/
def setQueue : List (String × LotQueue) → String → LotQueue → List (String × LotQueue)
  | [], s, q => [(s, q)]
  | (s2, q2) :: rest, s, q =>
    if s2 = s then (s, q) :: rest else (s2, q2) :: setQueue rest s q

lemma lookup_setQueue (queues : List (String × LotQueue)) (s : String) (q : LotQueue) :
    (setQueue queues s q).lookup s = some q := by
  induction queues with
  | nil => simp [setQueue, List.lookup]
  | cons p rest ih =>
    obtain ⟨s2, q2⟩ := p
    by_cases h : s2 = s
    · simp [setQueue, h, List.lookup]
    · simp only [setQueue, if_neg h, List.lookup]
      have hne : (s == s2) = false := beq_eq_false_iff_ne.mpr (fun he => h he.symm)
      rw [hne]
      exact ih

/-- LotTrackingService._process_buy (lot_tracking_service.py lines 54-90). -/
def LotTrackingService.process_buy (svc : LotTrackingService) (lot_id : Nat)
    (txn : Transaction) : ServiceResult × LotTrackingService :=
  let q := (svc.queues.lookup txn.symbol).getD (emptyQueue txn.symbol)
  let lot := mkLotFromBuy lot_id txn
  (ServiceResult.lot_created lot_id txn.symbol txn.quantity txn.net_amount,
   { queues := setQueue svc.queues txn.symbol (q.add_lot lot) })

/-- LotTrackingService._process_sell (lot_tracking_service.py lines 92-128):
the guard `if not queue:` fires both when the dict holds no entry for the
symbol and when the entry is a falsy queue — LotQueue defines __len__ (the
count of non-depleted lots, lot.py lines 216-218) and no __bool__, so a
queue with zero active lots is falsy — and returns the sell_error dict.
Past the guard, selling more than currently held yields a warning result
and performs no disposal; otherwise dispose FIFO. -/
def LotTrackingService.process_sell (svc : LotTrackingService)
    (txn : Transaction) : ServiceResult × LotTrackingService :=
  match svc.queues.lookup txn.symbol with
  | none => (ServiceResult.sell_error txn.symbol, svc)
  | some q =>
    if q.lots.length = 0 then (ServiceResult.sell_error txn.symbol, svc)
    else if q.total_quantity < txn.quantity then
      (ServiceResult.sell_warning txn.quantity q.total_quantity, svc)
    else
      let r := q.dispose_fifo txn.quantity txn.price txn.transaction_date txn.fx_rate
      (ServiceResult.lots_disposed txn.symbol txn.quantity r.1 r.2.total_quantity,
       { queues := setQueue svc.queues txn.symbol r.2 })

/-- One lot adjusted by the split loop (lot_tracking_service.py lines
163-175, identical to pnl_calculator.py lines 293-305): the lot receives
its proportional share of the additional shares, acquisition_quantity is
multiplied by the effective split factor, and acquisition_price is divided
by it.  The source names the factor effective_ratio. -/
def splitAdjustLot (total_existing_shares additional_shares factor : ℚ) (l : Lot) : Lot :=
  { l with
      remaining_quantity :=
        l.remaining_quantity +
          additional_shares * (l.remaining_quantity / total_existing_shares),
      acquisition_quantity := l.acquisition_quantity * factor,
      acquisition_price := l.acquisition_price / factor }

/-- LotTrackingService._process_stock_split (lot_tracking_service.py lines
130-191): txn.quantity is the number of NEW shares received; the effective
split factor is (held + new) / held, computed from the held quantity. -/
def LotTrackingService.process_stock_split (svc : LotTrackingService)
    (txn : Transaction) : ServiceResult × LotTrackingService :=
  match svc.queues.lookup txn.symbol with
  | none => (ServiceResult.split_error txn.symbol, svc)
  | some q =>
    let additional_shares := txn.quantity
    let total_existing_shares := q.total_quantity
    if 0 < total_existing_shares then
      let factor := (total_existing_shares + additional_shares) / total_existing_shares
      (ServiceResult.split_processed txn.symbol additional_shares factor,
       { queues := setQueue svc.queues txn.symbol
          { q with allLots :=
              q.allLots.map (splitAdjustLot total_existing_shares additional_shares factor) } })
    else (ServiceResult.split_error txn.symbol, svc)

/-- LotTrackingService.process_transaction (lot_tracking_service.py lines
36-52): dispatch on is_buy / is_sell / STOCK_SPLIT, else no action. -/
def LotTrackingService.process_transaction (svc : LotTrackingService)
    (lot_id : Nat) (txn : Transaction) : ServiceResult × LotTrackingService :=
  if txn.transaction_type.is_buy then svc.process_buy lot_id txn
  else if txn.transaction_type.is_sell then svc.process_sell txn
  else if txn.transaction_type = TransactionType.STOCK_SPLIT then
    svc.process_stock_split txn
  else (ServiceResult.no_action, svc)

/-- C4: processing a stock split of N new shares against a symbol whose
queue holds pre-split total quantity Q > 0 computes the factor (Q + N) / Q
from the held quantity, scales every lot's remaining_quantity and
acquisition_quantity by that factor, divides every lot's acquisition_price
by it, and leaves each lot's remaining cost basis unchanged. -/
theorem stock_split_scales_lots (svc : LotTrackingService) (txn : Transaction)
    (q : LotQueue) (hq : svc.queues.lookup txn.symbol = some q)
    (hpos : 0 < q.total_quantity) (hnn : 0 ≤ txn.quantity) :
    (svc.process_stock_split txn).1 =
      ServiceResult.split_processed txn.symbol txn.quantity
        ((q.total_quantity + txn.quantity) / q.total_quantity) ∧
    (svc.process_stock_split txn).2.queues.lookup txn.symbol =
      some { q with
              allLots := q.allLots.map
                          (splitAdjustLot q.total_quantity txn.quantity
                            ((q.total_quantity + txn.quantity) / q.total_quantity)) } ∧
    (∀ l : Lot,
      (splitAdjustLot q.total_quantity txn.quantity
          ((q.total_quantity + txn.quantity) / q.total_quantity) l).remaining_quantity =
        l.remaining_quantity * ((q.total_quantity + txn.quantity) / q.total_quantity) ∧
      (splitAdjustLot q.total_quantity txn.quantity
          ((q.total_quantity + txn.quantity) / q.total_quantity) l).acquisition_quantity =
        l.acquisition_quantity * ((q.total_quantity + txn.quantity) / q.total_quantity) ∧
      (splitAdjustLot q.total_quantity txn.quantity
          ((q.total_quantity + txn.quantity) / q.total_quantity) l).acquisition_price =
        l.acquisition_price / ((q.total_quantity + txn.quantity) / q.total_quantity) ∧
      (splitAdjustLot q.total_quantity txn.quantity
          ((q.total_quantity + txn.quantity) / q.total_quantity) l).remaining_cost_basis =
        l.remaining_cost_basis) := by
  have hQ : q.total_quantity ≠ 0 := ne_of_gt hpos
  have hfac : 0 < (q.total_quantity + txn.quantity) / q.total_quantity :=
    div_pos (by linarith) hpos
  have hfne : (q.total_quantity + txn.quantity) / q.total_quantity ≠ 0 := ne_of_gt hfac
  refine ⟨?_, ?_, ?_⟩
  · simp only [LotTrackingService.process_stock_split, hq, if_pos hpos]
  · simp only [LotTrackingService.process_stock_split, hq, if_pos hpos]
    exact lookup_setQueue svc.queues txn.symbol _
  · intro l
    refine ⟨?_, rfl, rfl, ?_⟩
    · simp only [splitAdjustLot]
      field_simp
      ring
    · simp only [splitAdjustLot, Lot.remaining_cost_basis, Lot.cost_per_unit]
      by_cases haq : l.acquisition_quantity = 0
      · simp [haq, hfne]
      · have haqf : l.acquisition_quantity *
            ((q.total_quantity + txn.quantity) / q.total_quantity) ≠ 0 :=
          mul_ne_zero haq hfne
        rw [if_neg haqf, if_neg haq]
        field_simp
        ring

def sampleSplitLot : Lot :=
  { lot_id := 6, symbol := "EEE", acquisition_date := 0, acquisition_price := 1000,
    acquisition_quantity := 1, acquisition_cost := 1000, acquisition_fx_rate := 1,
    remaining_quantity := 1, allocated_fees := 0 }

def sampleSplitQueue : LotQueue :=
  { symbol := "EEE", allLots := [sampleSplitLot], realizedPnlAcc := 0, disposedLots := [] }

def sampleSplitSvc : LotTrackingService :=
  { queues := [("EEE", sampleSplitQueue)] }

def sampleSplitTxn : Transaction :=
  { transaction_id := 1, symbol := "EEE", transaction_type := TransactionType.STOCK_SPLIT,
    transaction_date := 10, quantity := 9, price := 0, net_amount := 0,
    fx_rate := 1, total_fees := 0 }

/-- Witness for C4: a 10-for-1 split (9 new shares on 1 held share) of a
single lot of 1 share at cost 1000 yields remaining_quantity 10,
acquisition_price 100, and remaining cost basis still 1000. -/
theorem stock_split_scales_lots_witness :
    (sampleSplitSvc.process_stock_split sampleSplitTxn).2.queues.lookup "EEE" =
      some { symbol := "EEE",
             allLots := [{ lot_id := 6, symbol := "EEE", acquisition_date := 0,
                           acquisition_price := 100, acquisition_quantity := 10,
                           acquisition_cost := 1000, acquisition_fx_rate := 1,
                           remaining_quantity := 10, allocated_fees := 0 }],
             realizedPnlAcc := 0, disposedLots := [] } ∧
    ({ lot_id := 6, symbol := "EEE", acquisition_date := 0,
       acquisition_price := 100, acquisition_quantity := 10,
       acquisition_cost := 1000, acquisition_fx_rate := 1,
       remaining_quantity := 10, allocated_fees := 0 } : Lot).remaining_cost_basis
      = 1000 := by
  have h := stock_split_scales_lots sampleSplitSvc sampleSplitTxn sampleSplitQueue
    (by simp [sampleSplitSvc, sampleSplitTxn, List.lookup])
    (by norm_num [sampleSplitQueue, sampleSplitLot, LotQueue.total_quantity])
    (by norm_num [sampleSplitTxn])
  constructor
  · have h21 := h.2.1
    rw [show sampleSplitTxn.symbol = "EEE" from rfl] at h21
    rw [h21]
    norm_num [sampleSplitQueue, sampleSplitLot, sampleSplitTxn, splitAdjustLot,
      LotQueue.total_quantity]
  · norm_num [Lot.remaining_cost_basis, Lot.cost_per_unit]

def sampleEmptyQueue : LotQueue :=
  { symbol := "HHH", allLots := [], realizedPnlAcc := 6, disposedLots := [] }

def sampleEmptySvc : LotTrackingService :=
  { queues := [("HHH", sampleEmptyQueue)] }

def sampleEmptyTxn : Transaction :=
  { transaction_id := 3, symbol := "HHH", transaction_type := TransactionType.SELL,
    transaction_date := 6, quantity := 5, price := 9, net_amount := 45,
    fx_rate := 1, total_fees := 0 }

/-- Counterexample to C10 as stated: a sell of 5 against a symbol whose
queue is present in the dict but holds no active lots (the state left
behind after a full disposal), so total held 0 < 5, makes
process_transaction return a sell_error result, not a sell_warning —
the `if not queue` guard fires because the queue is falsy via
LotQueue.__len__. -/
theorem process_transaction_oversell_error_counterexample :
    sampleEmptySvc.queues.lookup "HHH" = some sampleEmptyQueue ∧
    sampleEmptyQueue.total_quantity < sampleEmptyTxn.quantity ∧
    (sampleEmptySvc.process_transaction 9 sampleEmptyTxn).1 =
      ServiceResult.sell_error "HHH" := by
  refine ⟨by simp [sampleEmptySvc, List.lookup], ?_, ?_⟩
  · norm_num [sampleEmptyQueue, LotQueue.total_quantity, sampleEmptyTxn]
  · simp [LotTrackingService.process_transaction, TransactionType.is_buy,
      TransactionType.is_sell, sampleEmptyTxn, LotTrackingService.process_sell,
      sampleEmptySvc, sampleEmptyQueue, LotQueue.lots, List.lookup]

/-- C10 amended: a sell transaction whose quantity strictly exceeds the
total quantity held for its symbol performs no disposal at all — the
service state, hence every lot's remaining_quantity, the queue's cumulative
realized P&L and the disposal history, is returned unchanged — and
process_transaction returns a sell_warning result when the symbol's queue
holds at least one active (non-depleted) lot, but a sell_error result when
it holds none (the queue is then falsy under the source's `if not queue`
guard, via LotQueue.__len__). -/
theorem process_transaction_oversell_no_disposal (svc : LotTrackingService)
    (lot_id : Nat) (txn : Transaction) (q : LotQueue)
    (hsell : txn.transaction_type.is_sell = true)
    (hq : svc.queues.lookup txn.symbol = some q)
    (hover : q.total_quantity < txn.quantity) :
    (svc.process_transaction lot_id txn).2 = svc ∧
    (q.lots.length ≠ 0 →
      svc.process_transaction lot_id txn =
        (ServiceResult.sell_warning txn.quantity q.total_quantity, svc)) ∧
    (q.lots.length = 0 →
      svc.process_transaction lot_id txn =
        (ServiceResult.sell_error txn.symbol, svc)) := by
  have hbuy : txn.transaction_type.is_buy = false := by
    cases h : txn.transaction_type <;>
      simp [h, TransactionType.is_buy, TransactionType.is_sell] at hsell ⊢
  by_cases hlen : q.lots.length = 0
  · have hmain : svc.process_transaction lot_id txn =
        (ServiceResult.sell_error txn.symbol, svc) := by
      simp only [LotTrackingService.process_transaction, hbuy, hsell,
        Bool.false_eq_true, if_false, if_true, LotTrackingService.process_sell, hq,
        if_pos hlen]
    exact ⟨by rw [hmain], fun h => absurd hlen h, fun _ => hmain⟩
  · have hmain : svc.process_transaction lot_id txn =
        (ServiceResult.sell_warning txn.quantity q.total_quantity, svc) := by
      simp only [LotTrackingService.process_transaction, hbuy, hsell,
        Bool.false_eq_true, if_false, if_true, LotTrackingService.process_sell, hq,
        if_neg hlen, if_pos hover]
    exact ⟨by rw [hmain], fun _ => hmain, fun h => absurd h hlen⟩

def sampleOversellSvc : LotTrackingService :=
  { queues := [("DDD", sampleQueueE)] }

def sampleOversellTxn : Transaction :=
  { transaction_id := 2, symbol := "DDD", transaction_type := TransactionType.SELL,
    transaction_date := 4, quantity := 5, price := 9, net_amount := 45,
    fx_rate := 1, total_fees := 0 }

/-- Witness for the amended C10: selling 5 when 2 are held in one active
lot returns a warning and leaves the service unchanged. -/
theorem process_transaction_oversell_no_disposal_witness :
    sampleOversellSvc.process_transaction 7 sampleOversellTxn =
      (ServiceResult.sell_warning 5 sampleQueueE.total_quantity, sampleOversellSvc) := by
  have h := process_transaction_oversell_no_disposal sampleOversellSvc 7 sampleOversellTxn
    sampleQueueE
    (by rfl)
    (by simp [sampleOversellSvc, sampleOversellTxn, List.lookup])
    (by norm_num [sampleQueueE, sampleLotE, LotQueue.total_quantity, sampleOversellTxn])
  have h2 := h.2.1 (by
    norm_num [sampleQueueE, sampleLotE, LotQueue.lots, Lot.is_depleted, List.filter])
  simpa [sampleOversellTxn] using h2

/-! ### Valuation with current prices (src/recon/calculators/pnl_calculator.py) -/

/-- The per-position valuation step of PnLCalculator.calculate_unrealized_pnl
(pnl_calculator.py lines 347-364): current_prices.get(symbol, 0) defaults a
missing price to zero, fx_rates.get(symbol, 1) defaults a missing FX rate
to one; the position's unrealized P&L comes from the queue and its market
value is quantity * price * fx_rate.  Returns (market_value,
unrealized_pnl). -/
def valuePosition (current_prices fx_rates : List (String × ℚ)) (q : LotQueue) :
    ℚ × ℚ :=
  let price := (current_prices.lookup q.symbol).getD 0
  let fx_rate := (fx_rates.lookup q.symbol).getD 1
  (q.total_quantity * price * fx_rate, q.calculate_unrealized_pnl price fx_rate)

lemma sum_map_neg (lots : List Lot) (f : Lot → ℚ) :
    (lots.map (fun l => -(f l))).sum = -((lots.map f).sum) := by
  induction lots with
  | nil => simp
  | cons l rest ih => simp only [List.map, List.sum_cons, ih, neg_add]

/-- At price zero a lot's unrealized P&L is minus its cost basis times its
acquisition FX rate. -/
lemma lot_unrealized_price_zero (l : Lot) (fx : ℚ) (h : 0 ≤ l.remaining_quantity) :
    l.calculate_unrealized_pnl 0 fx = -(l.remaining_cost_basis * l.acquisition_fx_rate) := by
  simp only [Lot.calculate_unrealized_pnl]
  by_cases h0 : l.remaining_quantity ≤ 0
  · rw [if_pos h0]
    have hq : l.remaining_quantity = 0 := le_antisymm h0 h
    simp [Lot.remaining_cost_basis, hq]
  · rw [if_neg h0]; ring

/-- C9: during valuation, a held symbol absent from the current-price map
raises no error and is priced at zero (and a symbol absent from the FX-rate
map gets rate 1), so that its market value is zero and its unrealized P&L
is the negation of its remaining cost basis times acquisition FX. -/
theorem missing_price_defaults_zero (current_prices fx_rates : List (String × ℚ))
    (q : LotQueue)
    (hmiss : current_prices.lookup q.symbol = none)
    (hrem : ∀ l ∈ q.allLots, 0 ≤ l.remaining_quantity) :
    (valuePosition current_prices fx_rates q).1 = 0 ∧
    (valuePosition current_prices fx_rates q).2 =
      -((q.allLots.map (fun l => l.remaining_cost_basis * l.acquisition_fx_rate)).sum) ∧
    (fx_rates.lookup q.symbol = none →
      ((fx_rates.lookup q.symbol).getD 1 : ℚ) = 1) := by
  refine ⟨?_, ?_, ?_⟩
  · simp [valuePosition, hmiss]
  · simp only [valuePosition, hmiss, Option.getD_none, LotQueue.calculate_unrealized_pnl]
    rw [List.map_congr_left
      (fun l hl => lot_unrealized_price_zero l _ (hrem l hl)), sum_map_neg]
  · intro hfx
    simp [hfx]

def sampleLotF : Lot :=
  { lot_id := 8, symbol := "FFF", acquisition_date := 0, acquisition_price := 5,
    acquisition_quantity := 2, acquisition_cost := 10, acquisition_fx_rate := 2,
    remaining_quantity := 2, allocated_fees := 0 }

def sampleQueueF : LotQueue :=
  { symbol := "FFF", allLots := [sampleLotF], realizedPnlAcc := 0, disposedLots := [] }

/-- Witness for C9: the symbol FFF is absent from the price map and the FX
map; its market value is 0 and its unrealized P&L is -(5*2*2) = -20. -/
theorem missing_price_defaults_zero_witness :
    (valuePosition [("GGG", 7)] [] sampleQueueF).1 = 0 ∧
    (valuePosition [("GGG", 7)] [] sampleQueueF).2 = -20 := by
  have h := missing_price_defaults_zero [("GGG", 7)] [] sampleQueueF
    (by simp [sampleQueueF, List.lookup])
    (by norm_num [sampleQueueF, sampleLotF])
  refine ⟨h.1, ?_⟩
  rw [h.2.1]
  norm_num [sampleQueueF, sampleLotF, Lot.remaining_cost_basis, Lot.cost_per_unit]

/-! ### XIRR guards (src/recon/calculators/irr_calculator.py) -/

/-- Embedding of irr_calculator.py, CashFlow. -/
structure CashFlow where
  date : Int
  amount : ℚ
deriving Repr, DecidableEq, Inhabited

/-- Stable insertion into a date-sorted list (equal dates keep original
order), modelling the stable sort by date at irr_calculator.py line 72. -/
def insertByDate (cf : CashFlow) : List CashFlow → List CashFlow
  | [] => [cf]
  | c :: rest =>
    if c.date ≤ cf.date then c :: insertByDate cf rest else cf :: c :: rest

def sortByDate : List CashFlow → List CashFlow
  | [] => []
  | c :: rest => insertByDate c (sortByDate rest)

lemma mem_insertByDate (cf x : CashFlow) (l : List CashFlow) :
    x ∈ insertByDate cf l ↔ x = cf ∨ x ∈ l := by
  induction l with
  | nil => simp [insertByDate]
  | cons c rest ih =>
    by_cases h : c.date ≤ cf.date
    · simp only [insertByDate, if_pos h, List.mem_cons, ih]
      tauto
    · simp only [insertByDate, if_neg h, List.mem_cons]

lemma mem_sortByDate (x : CashFlow) (l : List CashFlow) :
    x ∈ sortByDate l ↔ x ∈ l := by
  induction l with
  | nil => simp [sortByDate]
  | cons c rest ih => simp [sortByDate, mem_insertByDate, ih]

/-- Embedding of IRRCalculator.calculate_xirr (irr_calculator.py lines
53-120): fewer than two cash flows return None; after sorting by date, a
cash-flow list whose amounts are all non-negative or all non-positive
returns None.  Only past both guards are the time fractions
(days from the first date) / 365 computed and the Newton-Raphson iteration
entered; that iteration (lines 86-119), which runs in floating point, is
abstracted as the newton_raphson argument, since the properties verified
here concern exactly the inputs for which it is never invoked. -/
def calculate_xirr (newton_raphson : List ℚ → List ℚ → Option ℚ)
    (cash_flows : List CashFlow) : Option ℚ :=
  if cash_flows.length < 2 then none
  else
    let sorted_cfs := sortByDate cash_flows
    let amounts := sorted_cfs.map CashFlow.amount
    if amounts.all (fun a => decide (0 ≤ a)) || amounts.all (fun a => decide (a ≤ 0)) then
      none
    else
      let base_date := sorted_cfs.headI.date
      let time_fractions :=
        sorted_cfs.map (fun cf => ((cf.date - base_date : Int) : ℚ) / 365)
      newton_raphson amounts time_fractions

/-- C7: calculate_xirr returns no solution immediately — independent of the
Newton-Raphson solver, which is never invoked — for fewer than two cash
flows, and for cash-flow lists with no sign change (all amounts
non-negative or all non-positive). -/
theorem xirr_no_sign_change_none (newton_raphson : List ℚ → List ℚ → Option ℚ)
    (cash_flows : List CashFlow)
    (h : cash_flows.length < 2 ∨ (∀ cf ∈ cash_flows, 0 ≤ cf.amount) ∨
      (∀ cf ∈ cash_flows, cf.amount ≤ 0)) :
    calculate_xirr newton_raphson cash_flows = none := by
  by_cases hlen : cash_flows.length < 2
  · simp [calculate_xirr, hlen]
  · rcases h with h | h | h
    · exact absurd h hlen
    · have hall : ((sortByDate cash_flows).map CashFlow.amount).all
          (fun a => decide ((0:ℚ) ≤ a)) = true := by
        rw [List.all_eq_true]
        intro a ha
        rcases List.mem_map.mp ha with ⟨cf, hcf, rfl⟩
        exact decide_eq_true (h cf ((mem_sortByDate cf cash_flows).mp hcf))
      simp [calculate_xirr, hlen, hall]
    · have hall : ((sortByDate cash_flows).map CashFlow.amount).all
          (fun a => decide (a ≤ (0:ℚ))) = true := by
        rw [List.all_eq_true]
        intro a ha
        rcases List.mem_map.mp ha with ⟨cf, hcf, rfl⟩
        exact decide_eq_true (h cf ((mem_sortByDate cf cash_flows).mp hcf))
      simp [calculate_xirr, hlen, hall]

/-- Witness for C7: two positive cash flows yield no solution, whatever the
solver would have answered. -/
theorem xirr_no_sign_change_none_witness :
    calculate_xirr (fun _ _ => some 42) [⟨0, 1⟩, ⟨30, 2⟩] = none := by
  refine xirr_no_sign_change_none (fun _ _ => some 42) [⟨0, 1⟩, ⟨30, 2⟩]
    (Or.inr (Or.inl ?_))
  intro cf hcf
  simp only [List.mem_cons, List.not_mem_nil, or_false] at hcf
  rcases hcf with rfl | rfl <;> norm_num

/-! ### Whole-period Modified Dietz TWR (src/recon/calculators/twr_calculator.py) -/

/-- The running total of cash flows accumulated by the loop at
twr_calculator.py lines 216-225. -/
def twrTotalCF (cash_flows : List (Int × ℚ)) : ℚ :=
  (cash_flows.map (fun p => p.2)).sum

/-- The weighted cash flows accumulated by the same loop: each flow is
weighted by (end_date - cf_date) / total_days, the fraction of the period
remaining after the flow. -/
def twrWeightedCF (start_date end_date : Int) (cash_flows : List (Int × ℚ)) : ℚ :=
  (cash_flows.map (fun p =>
    (((end_date - p.1 : Int) : ℚ) / ((end_date - start_date : Int) : ℚ)) * p.2)).sum

/-- Embedding of TWRCalculator.calculate_twr_from_transactions
(twr_calculator.py lines 179-235): a non-positive period returns None; with
no cash flows, a zero start value returns None and otherwise the simple
return; with cash flows, a zero Modified Dietz denominator returns None and
otherwise the Modified Dietz return. -/
def calculate_twr_from_transactions (start_value end_value : ℚ)
    (start_date end_date : Int) (cash_flows : List (Int × ℚ)) : Option ℚ :=
  if end_date - start_date ≤ 0 then none
  else if cash_flows.isEmpty then
    if start_value = 0 then none
    else some ((end_value - start_value) / start_value)
  else
    let total_cf := twrTotalCF cash_flows
    let weighted_cf := twrWeightedCF start_date end_date cash_flows
    let denominator := start_value + weighted_cf
    if denominator = 0 then none
    else some ((end_value - start_value - total_cf) / denominator)

/-- C8: the whole-period TWR entry point returns the Modified Dietz value
(end - start - total_cf) / (start + weighted_cf), each flow weighted by the
fraction of the period remaining after it; with no cash flows and a
non-zero start value this is the simple return (end - start) / start. -/
theorem twr_from_transactions_modified_dietz (start_value end_value : ℚ)
    (start_date end_date : Int) (cash_flows : List (Int × ℚ))
    (hdays : start_date < end_date)
    (hden : start_value + twrWeightedCF start_date end_date cash_flows ≠ 0) :
    calculate_twr_from_transactions start_value end_value start_date end_date cash_flows =
      some ((end_value - start_value - twrTotalCF cash_flows) /
        (start_value + twrWeightedCF start_date end_date cash_flows)) ∧
    (cash_flows = [] →
      calculate_twr_from_transactions start_value end_value start_date end_date cash_flows =
        some ((end_value - start_value) / start_value)) := by
  have h1 : ¬ (end_date - start_date ≤ 0) := by omega
  constructor
  · cases cash_flows with
    | nil =>
      have hs : start_value ≠ 0 := by
        simpa [twrWeightedCF] using hden
      simp [calculate_twr_from_transactions, h1, hs, twrTotalCF, twrWeightedCF]
    | cons c rest =>
      simp only [calculate_twr_from_transactions, if_neg h1, List.isEmpty_cons,
        Bool.false_eq_true, if_false, if_neg hden]
  · intro hnil
    subst hnil
    have hs : start_value ≠ 0 := by
      simpa [twrWeightedCF] using hden
    simp [calculate_twr_from_transactions, h1, hs]

/-- Witness for C8: over 10000 at day 0 to 11000 at day 365 with no interim
cash flow, the TWR is exactly 0.10. -/
theorem twr_from_transactions_modified_dietz_witness :
    calculate_twr_from_transactions 10000 11000 0 365 [] = some (1/10) := by
  have h := twr_from_transactions_modified_dietz 10000 11000 0 365 []
    (by omega) (by norm_num [twrWeightedCF])
  rw [h.2 rfl]
  norm_num

end Recon
